import Mathlib

/-
  Verification development for the Ensembler repository
  (ensembler/potentials/biased_potentials/biasOneD.py and
  ensembler/system/perturbed_system.py).

  Numbers are modelled as exact rationals (ℚ); list indices are Nat.
  Fallible Python code is modelled with Except over an explicit error type.
-/

/-- Python-level errors that the embedded code can raise.
`valueError` models numpy ValueError (negative array size, ambiguous array truth value),
`zeroDivisionError` models Python ZeroDivisionError, `nameError` carries the unbound name. -/
inductive PyError where
  | valueError : PyError
  | zeroDivisionError : PyError
  | nameError : String → PyError
deriving DecidableEq, Repr

/-- A Python value that is either a numeric scalar or a 1-D numeric array,
as distinguished by `isinstance(positions, float) or isinstance(positions, int)`
in `metadynamicsPotential.ene`. -/
inductive PyVal where
  | scalar : ℚ → PyVal
  | array : List ℚ → PyVal
deriving DecidableEq, Repr

/-- np.squeeze on a 1-D array: a length-one array collapses to a 0-d scalar,
anything else is returned unchanged. -/
def np_squeeze (xs : List ℚ) : PyVal :=
  match xs with
  | [x] => PyVal.scalar x
  | _ => PyVal.array xs

/-- np.searchsorted(array, value, side="left") on a sorted array: the number of
leading elements strictly below the value, i.e. the left insertion point. -/
def searchsorted_left : List ℚ → ℚ → Nat
  | [], _ => 0
  | a :: rest, v => if a < v then searchsorted_left rest v + 1 else 0

/-- metadynamicsPotential._find_nearest (biasOneD.py lines 293-313):
`idx = np.searchsorted(array, value, side="left")`, then
`if idx > 0 and (idx == len(array) or np.abs(value - array[idx-1]) < np.abs(value - array[idx])): return idx - 1 else: return idx`. -/
def find_nearest (array : List ℚ) (value : ℚ) : Nat :=
  let idx := searchsorted_left array value
  if 0 < idx ∧ (idx = array.length ∨ |value - array.getD (idx - 1) 0| < |value - array.getD idx 0|)
  then idx - 1
  else idx

/-- np.linspace(start, stop, num) with endpoint=True: `num` evenly spaced points
from start to stop inclusive; a single point is just the start. -/
def np_linspace (start stop : ℚ) (num : Nat) : List ℚ :=
  if num = 1 then [start]
  else (List.range num).map (fun i : Nat => start + (stop - start) * (i : ℚ) / ((num : ℚ) - 1))

/-- The state of a metadynamicsPotential object (biasOneD.py lines 161-206).
The base potential is the external collaborator `origPotential`; it enters the
object only through the two numeric functions `_calculate_energies` /
`_calculate_dVdpos` used by `ene` / `force`, so it is carried as those functions. -/
structure MetadynamicsPotential where
  calc_energies : ℚ → ℚ
  calc_dVdpos : ℚ → ℚ
  amplitude : ℚ
  sigma : ℚ
  n_trigger : Int
  bias_grid_energy : List ℚ
  bias_grid_force : List ℚ
  bin_centers : List ℚ
  current_n : Int
  finished_steps : Int

/-- metadynamicsPotential.__init__ (biasOneD.py lines 161-206).
No argument validation is performed by the source.  The only failure modes lie in
numpy/python themselves: `np.zeros(numbins)` raises ValueError for a negative size,
and `bin_half = (bias_grid_max - bias_grid_min)/(2*numbins)` raises
ZeroDivisionError for `numbins = 0` (np.zeros(0) itself succeeds).
Otherwise all fields are set: zero grids, centers
`np.linspace(min + bin_half, max - bin_half, numbins)`, `current_n = 1`,
`finished_steps = 0`. -/
def metadynamicsPotential_init (origE origF : ℚ → ℚ) (amplitude sigma : ℚ) (n_trigger : Int)
    (bias_grid_min bias_grid_max : ℚ) (numbins : Int) : Except PyError MetadynamicsPotential :=
  if numbins < 0 then Except.error PyError.valueError
  else if numbins = 0 then Except.error PyError.zeroDivisionError
  else
    let bin_half : ℚ := (bias_grid_max - bias_grid_min) / (2 * (numbins : ℚ))
    Except.ok
      { calc_energies := origE
        calc_dVdpos := origF
        amplitude := amplitude
        sigma := sigma
        n_trigger := n_trigger
        bias_grid_energy := List.replicate numbins.toNat 0
        bias_grid_force := List.replicate numbins.toNat 0
        bin_centers := np_linspace (bias_grid_min + bin_half) (bias_grid_max - bin_half) numbins.toNat
        current_n := 1
        finished_steps := 0 }

/-- Elementwise addition of two numpy arrays (in all reachable states both grids
and the kernel rasterizations share the length `numbins`, so zipWith never truncates). -/
def zipAdd (xs ys : List ℚ) : List ℚ := List.zipWith (· + ·) xs ys

/-- metadynamicsPotential._update_potential (biasOneD.py lines 227-249), with the
Gaussian kernel abstracted: `gaussPotential` lives in ensembler.potentials.OneD,
which is not part of this repository snapshot, so the lambdified kernel energy and
force are taken as arguments `kE kF : (A mu sigma r : ℚ) → ℚ`.  The grids receive
the kernel evaluated at every bin center, added elementwise. -/
def update_potential (kE kF : ℚ → ℚ → ℚ → ℚ → ℚ) (p : MetadynamicsPotential)
    (curr_position : ℚ) : MetadynamicsPotential :=
  { p with
    bias_grid_energy := zipAdd p.bias_grid_energy (p.bin_centers.map (kE p.amplitude curr_position p.sigma))
    bias_grid_force := zipAdd p.bias_grid_force (p.bin_centers.map (kF p.amplitude curr_position p.sigma)) }

/-- metadynamicsPotential.check_for_metastep (biasOneD.py lines 208-225):
`if current_n % n_trigger == 0:` deposit, `finished_steps += 1`, `current_n = 1`,
`else: current_n += 1`.  Lean's `%` on Int is emod, which agrees with Python `%`
for the positive moduli the claims quantify over. -/
def check_for_metastep (kE kF : ℚ → ℚ → ℚ → ℚ → ℚ) (p : MetadynamicsPotential)
    (curr_position : ℚ) : MetadynamicsPotential :=
  if p.current_n % p.n_trigger = 0 then
    { update_potential kE kF p curr_position with
      current_n := 1
      finished_steps := p.finished_steps + 1 }
  else
    { p with current_n := p.current_n + 1 }

/-- The deposition condition of `check_for_metastep`, read off the state before the call. -/
def fires (p : MetadynamicsPotential) : Bool := p.current_n % p.n_trigger = 0

/-- A sequence of calls to `check_for_metastep`, one per visited position. -/
def run_steps (kE kF : ℚ → ℚ → ℚ → ℚ → ℚ) (p : MetadynamicsPotential)
    (positions : List ℚ) : MetadynamicsPotential :=
  positions.foldl (check_for_metastep kE kF) p

/-- A sequence of raw depositions via `_update_potential`, one per kernel center. -/
def run_deposits (kE kF : ℚ → ℚ → ℚ → ℚ → ℚ) (p : MetadynamicsPotential)
    (positions : List ℚ) : MetadynamicsPotential :=
  positions.foldl (update_potential kE kF) p

/-- metadynamicsPotential.ene (biasOneD.py lines 252-272).  Scalar input: base
energy plus the bias-grid entry at the nearest bin.  Sequence input: the bias
entries are collected per element, added to the vectorized base energies, and the
result passed through np.squeeze (so a length-one array collapses to a scalar). -/
def ene (p : MetadynamicsPotential) (positions : PyVal) : PyVal :=
  match positions with
  | PyVal.scalar x =>
      PyVal.scalar (p.calc_energies x + p.bias_grid_energy.getD (find_nearest p.bin_centers x) 0)
  | PyVal.array xs =>
      np_squeeze (List.zipWith (· + ·) (xs.map p.calc_energies)
        (xs.map (fun e => p.bias_grid_energy.getD (find_nearest p.bin_centers e) 0)))

/-- metadynamicsPotential.force (biasOneD.py lines 276-291).  Unlike `ene`, there
is no isinstance branch: `_find_nearest` is applied to `positions` directly.  On a
scalar this works.  On an array, np.searchsorted vectorizes and returns an index
array, and the subsequent `if idx > 0 and ...` calls bool() on a boolean array:
for length ≥ 2 that raises ValueError (ambiguous truth value); a length-one array
behaves like its single element and the final np.squeeze collapses the result to
a scalar; an empty array is falsy, indexes nothing and squeezes to an empty array. -/
def force (p : MetadynamicsPotential) (positions : PyVal) : Except PyError PyVal :=
  match positions with
  | PyVal.scalar x =>
      Except.ok (PyVal.scalar (p.calc_dVdpos x + p.bias_grid_force.getD (find_nearest p.bin_centers x) 0))
  | PyVal.array [] => Except.ok (PyVal.array [])
  | PyVal.array [x] =>
      Except.ok (PyVal.scalar (p.calc_dVdpos x + p.bias_grid_force.getD (find_nearest p.bin_centers x) 0))
  | PyVal.array _ => Except.error PyError.valueError

/-- Whether an Except carries a successfully constructed value. -/
def except_ok {ε α : Type} : Except ε α → Bool
  | Except.ok _ => true
  | Except.error _ => false

/-
  perturbed_system.py
-/

/-- The lambdaState record (ensembler.util.dataStructure, not under src/): its
fields mirror exactly the keyword arguments passed in
`perturbedSystem.update_current_state` (perturbed_system.py lines 140-145). -/
structure LambdaState where
  position : ℚ
  temperature : ℚ
  total_system_energy : ℚ
  total_potential_energy : ℚ
  total_kinetic_energy : ℚ
  dhdpos : ℚ
  velocity : ℚ
  lam : ℚ
  dhdlam : ℚ
deriving DecidableEq, Repr

/-- The state of a perturbedSystem object.  The potential collaborator enters
through three numeric functions: potential energy at a position, kinetic energy
from the velocities, and `potential.dvdlam`. -/
structure PerturbedSystem where
  potE : ℚ → ℚ
  kinE : ℚ → ℚ
  dvdlam : ℚ → ℚ
  currentPosition : ℚ
  currentVelocities : ℚ
  currentForce : ℚ
  currentTemperature : ℚ
  currentLambda : ℚ
  currentdHdLambda : ℚ
  currentTotE : ℚ
  currentTotPot : ℚ
  currentTotKin : ℚ
  currentState : LambdaState

/-- Modelled from the spec: `system._update_energies` (ensembler.system.basic_system)
is not under src/; it refreshes the cached total/potential/kinetic energies from the
current position and velocities through the potential collaborator and mutates no
other field. -/
def update_energies (s : PerturbedSystem) : PerturbedSystem :=
  { s with
    currentTotPot := s.potE s.currentPosition
    currentTotKin := s.kinE s.currentVelocities
    currentTotE := s.potE s.currentPosition + s.kinE s.currentVelocities }

/-- perturbedSystem.update_current_state (perturbed_system.py lines 134-145):
rebuilds `_currentState` from the `_current*` fields. -/
def update_current_state (s : PerturbedSystem) : PerturbedSystem :=
  { s with
    currentState :=
      { position := s.currentPosition
        temperature := s.currentTemperature
        total_system_energy := s.currentTotE
        total_potential_energy := s.currentTotPot
        total_kinetic_energy := s.currentTotKin
        dhdpos := s.currentForce
        velocity := s.currentVelocities
        lam := s.currentLambda
        dhdlam := s.currentdHdLambda } }

/-- perturbedSystem._update_dHdLambda (perturbed_system.py lines 181-194):
`_currentdHdLambda = potential.dvdlam(_currentPosition)` followed by
`update_current_state()`. -/
def update_dHdLambda (s : PerturbedSystem) : PerturbedSystem :=
  update_current_state { s with currentdHdLambda := s.dvdlam s.currentPosition }

/-- perturbedSystem.set_current_state (perturbed_system.py lines 87-123).  The
assignments are transcribed verbatim; note line 116 reads
`self._currentVelocities = current_force`, so the `current_velocities` argument
is never stored.  Then `_update_energies()`, `_update_dHdLambda()` and
`update_current_state()` run in that order. -/
def set_current_state (s : PerturbedSystem) (current_position current_velocities
    current_force current_temperature current_lambda current_dHdLambda : ℚ) :
    PerturbedSystem :=
  let s1 :=
    { s with
      currentPosition := current_position
      currentForce := current_force
      currentVelocities := current_force
      currentTemperature := current_temperature
      currentLambda := current_lambda
      currentdHdLambda := current_dHdLambda }
  update_current_state (update_dHdLambda (update_energies s1))

/-
  Name-resolution model for _bias_baseclass.__init__
-/

/-- One Python statement of a constructor body, reduced to what name resolution
sees: the bare (non-attribute) names its right-hand side reads eagerly, and the
local name it binds, if any.  Attribute targets (`self.x = ...`) and bare
expression statements bind nothing. -/
inductive PyStmt where
  | assignAttr : String → List String → PyStmt
  | assignLocal : String → List String → PyStmt
  | exprStmt : List String → PyStmt
deriving DecidableEq, Repr

/-- The first referenced name that is bound neither locally nor globally. -/
def firstUnbound (bound refs : List String) : Option String :=
  refs.find? (fun r => ! bound.contains r)

/-- Runs a constructor body under Python name resolution: each statement's bare
names must resolve in the local scope or the module/builtin scope, otherwise the
statement raises NameError for the first unresolved name; a local assignment
extends the local scope. -/
def runStmts (globals : List String) : List String → List PyStmt → Except PyError Unit
  | _, [] => Except.ok ()
  | locals, PyStmt.assignAttr _ refs :: rest =>
      match firstUnbound (locals ++ globals) refs with
      | some n => Except.error (PyError.nameError n)
      | none => runStmts globals locals rest
  | locals, PyStmt.assignLocal x refs :: rest =>
      match firstUnbound (locals ++ globals) refs with
      | some n => Except.error (PyError.nameError n)
      | none => runStmts globals (x :: locals) rest
  | locals, PyStmt.exprStmt refs :: rest =>
      match firstUnbound (locals ++ globals) refs with
      | some n => Except.error (PyError.nameError n)
      | none => runStmts globals locals rest

/-- The body of `_bias_baseclass.__init__` (biasOneD.py lines 26-48), one entry
per executed statement, carrying the bare names each right-hand side reads:
line 35 `self.integrator = integrator`; line 36 `self.system = system`;
line 39 `self.V_orig = sp.Lambda(self.position, self.y_shift)`;
line 41 `self.constants = {self.y_shift: y_shift}` — the dictionary value is the
bare name `y_shift`, which is neither a parameter nor a local nor a module-level
name (the class attribute of the same name is not visible to bare lookups inside
a method); line 42 `self.V = self.V_orig.subs(self.constants)`;
line 43 `self.dVdpos = sp.diff(self.V, self.position)`; line 45 `super().__init__()`;
lines 47-48 assign lambdas to attributes (a lambda body is evaluated lazily, so
its free names are not read at definition time). -/
def biasBaseclassInitBody : List PyStmt :=
  [ PyStmt.assignAttr "integrator" ["integrator"]
  , PyStmt.assignAttr "system" ["system"]
  , PyStmt.assignAttr "V_orig" ["sp"]
  , PyStmt.assignAttr "constants" ["y_shift"]
  , PyStmt.assignAttr "V" []
  , PyStmt.assignAttr "dVdpos" ["sp"]
  , PyStmt.exprStmt ["super"]
  , PyStmt.assignAttr "calculate_energies_attr" []
  , PyStmt.assignAttr "dVdpos" []
  ]

/-- The names visible to bare lookups inside biasOneD.py methods: the module's
imports and top-level classes plus the builtins the body touches. -/
def biasOneDGlobals : List String :=
  ["np", "sp", "_potential1DCls", "gaussPotential", "_bias_baseclass",
   "addedPotentials", "metadynamicsPotential", "timedependendBias",
   "metadynamicsPotentialSympy", "super", "len", "isinstance"]

/-- The local scope of `_bias_baseclass.__init__` at entry: its parameters. -/
def biasBaseclassInitLocals : List String := ["self", "integrator", "system"]

/-
  Concrete instances used to evaluate the embedded code.
-/

/-- A placeholder object, used only as the unreachable fallback of `exceptGet`. -/
def defaultMeta : MetadynamicsPotential :=
  { calc_energies := fun _ => 0
    calc_dVdpos := fun _ => 0
    amplitude := 0
    sigma := 0
    n_trigger := 1
    bias_grid_energy := []
    bias_grid_force := []
    bin_centers := []
    current_n := 1
    finished_steps := 0 }

/-- Extracts the constructed object from a successful construction. -/
def exceptGet (e : Except PyError MetadynamicsPotential) : MetadynamicsPotential :=
  match e with
  | Except.ok p => p
  | Except.error _ => defaultMeta

/-- A concrete stand-in for the lambdified Gaussian kernel, used to evaluate the
deposition machinery on explicit inputs. -/
def kdemo : ℚ → ℚ → ℚ → ℚ → ℚ := fun A mu sigma r => A + mu + sigma + r

/-- A concrete metadynamicsPotential: base potential x ↦ x with derivative 1,
amplitude 1/10, sigma 1/10, n_trigger 10, grid over [0, 10] with 4 bins. -/
def demoPot : MetadynamicsPotential :=
  exceptGet (metadynamicsPotential_init (fun x => x) (fun _ => 1) (1/10) (1/10) 10 0 10 4)

/-- A concrete metadynamicsPotential with n_trigger 3, grid over [0, 10] with 4 bins. -/
def demoP3 : MetadynamicsPotential :=
  exceptGet (metadynamicsPotential_init (fun x => x) (fun _ => 0) (1/10) (1/10) 3 0 10 4)

/-
  Preservation facts about the step/deposition operations.
-/

lemma update_potential_preserves (kE kF : ℚ → ℚ → ℚ → ℚ → ℚ) (p : MetadynamicsPotential)
    (x : ℚ) :
    (update_potential kE kF p x).bin_centers = p.bin_centers ∧
    (update_potential kE kF p x).amplitude = p.amplitude ∧
    (update_potential kE kF p x).sigma = p.sigma ∧
    (update_potential kE kF p x).n_trigger = p.n_trigger ∧
    (update_potential kE kF p x).calc_energies = p.calc_energies ∧
    (update_potential kE kF p x).calc_dVdpos = p.calc_dVdpos ∧
    (update_potential kE kF p x).current_n = p.current_n ∧
    (update_potential kE kF p x).finished_steps = p.finished_steps :=
  ⟨rfl, rfl, rfl, rfl, rfl, rfl, rfl, rfl⟩

lemma check_for_metastep_preserves (kE kF : ℚ → ℚ → ℚ → ℚ → ℚ) (p : MetadynamicsPotential)
    (x : ℚ) :
    (check_for_metastep kE kF p x).bin_centers = p.bin_centers ∧
    (check_for_metastep kE kF p x).n_trigger = p.n_trigger ∧
    (check_for_metastep kE kF p x).calc_energies = p.calc_energies ∧
    (check_for_metastep kE kF p x).calc_dVdpos = p.calc_dVdpos := by
  unfold check_for_metastep update_potential
  split <;> exact ⟨rfl, rfl, rfl, rfl⟩

lemma run_steps_preserves (kE kF : ℚ → ℚ → ℚ → ℚ → ℚ) (positions : List ℚ) :
    ∀ p : MetadynamicsPotential,
    (run_steps kE kF p positions).bin_centers = p.bin_centers ∧
    (run_steps kE kF p positions).n_trigger = p.n_trigger ∧
    (run_steps kE kF p positions).calc_energies = p.calc_energies ∧
    (run_steps kE kF p positions).calc_dVdpos = p.calc_dVdpos := by
  induction positions with
  | nil => intro p; exact ⟨rfl, rfl, rfl, rfl⟩
  | cons x rest ih =>
      intro p
      have hstep := check_for_metastep_preserves kE kF p x
      have htail := ih (check_for_metastep kE kF p x)
      refine ⟨?_, ?_, ?_, ?_⟩
      · exact htail.1.trans hstep.1
      · exact htail.2.1.trans hstep.2.1
      · exact htail.2.2.1.trans hstep.2.2.1
      · exact htail.2.2.2.trans hstep.2.2.2

/-- C1: Sum decomposition.  For every state reachable from any starting state by
any sequence of `check_for_metastep` calls and every scalar position x, `ene`
returns the base potential's energy at x plus the bias-grid energy entry at the
bin `_find_nearest` selects for x. -/
theorem ene_scalar_sum_decomposition (kE kF : ℚ → ℚ → ℚ → ℚ → ℚ)
    (p : MetadynamicsPotential) (steps : List ℚ) (x : ℚ) :
    ene (run_steps kE kF p steps) (PyVal.scalar x)
      = PyVal.scalar (p.calc_energies x
          + (run_steps kE kF p steps).bias_grid_energy.getD
              (find_nearest (run_steps kE kF p steps).bin_centers x) 0) := by
  have h := (run_steps_preserves kE kF steps p).2.2.1
  simp [ene, h]

/-- C9: perturbedSystem.set_current_state stores the `current_force` argument into
both the stored force and the stored velocities, and the `current_velocities`
argument has no effect on the resulting state. -/
theorem set_current_state_velocities_from_force (s : PerturbedSystem)
    (pos v v' f t lam dHdl : ℚ) :
    (set_current_state s pos v f t lam dHdl).currentVelocities = f ∧
    (set_current_state s pos v f t lam dHdl).currentForce = f ∧
    set_current_state s pos v f t lam dHdl = set_current_state s pos v' f t lam dHdl :=
  ⟨rfl, rfl, rfl⟩

/-- C10: executing the body of `_bias_baseclass.__init__` under Python name
resolution raises NameError for the bare name `y_shift` (read on source line 41),
which is bound neither in the local scope nor at module level, whatever the
arguments are; so the class can never be instantiated. -/
theorem bias_baseclass_init_name_error :
    runStmts biasOneDGlobals biasBaseclassInitLocals biasBaseclassInitBody
      = Except.error (PyError.nameError "y_shift") ∧
    (biasBaseclassInitLocals ++ biasOneDGlobals).contains "y_shift" = false := by
  constructor
  · rfl
  · rfl

lemma demoPot_bin_centers : demoPot.bin_centers = [5/4, 15/4, 25/4, 35/4] := by
  have h : demoPot.bin_centers
      = np_linspace (0 + (10 - 0) / (2 * ((4 : Int) : ℚ))) (10 - (10 - 0) / (2 * ((4 : Int) : ℚ))) 4 := rfl
  have hr : List.range 4 = [0, 1, 2, 3] := rfl
  rw [h]
  norm_num [np_linspace, hr]

lemma find_nearest_demoPot_one : find_nearest demoPot.bin_centers 1 = 0 := by
  rw [demoPot_bin_centers]
  have h : searchsorted_left [5/4, 15/4, 25/4, 35/4] (1 : ℚ) = 0 := by
    norm_num [searchsorted_left]
  simp [find_nearest, h]

lemma find_nearest_demoPot_two : find_nearest demoPot.bin_centers 2 = 0 := by
  rw [demoPot_bin_centers]
  have h : searchsorted_left [5/4, 15/4, 25/4, 35/4] (2 : ℚ) = 1 := by
    norm_num [searchsorted_left]
  simp only [find_nearest, h]
  norm_num
  rw [abs_of_pos (by norm_num), abs_of_pos (by norm_num)]
  norm_num

/-- C5 (code bug): on the concrete potential `demoPot`, `force` on the
two-element sequence [1, 2] raises ValueError (numpy cannot convert the
vectorized index comparison to a single bool), while `ene` on the same input
returns a two-element sequence as the shape contract demands; `force` on the
scalar 1 works.  `demoPot` is exactly the object built by the constructor. -/
theorem force_vector_input_raises :
    metadynamicsPotential_init (fun x => x) (fun _ => 1) (1/10) (1/10) 10 0 10 4
      = Except.ok demoPot ∧
    force demoPot (PyVal.array [1, 2]) = Except.error PyError.valueError ∧
    ene demoPot (PyVal.array [1, 2]) = PyVal.array [1, 2] ∧
    force demoPot (PyVal.scalar 1) = Except.ok (PyVal.scalar 1) := by
  have hE : demoPot.calc_energies = fun x => x := rfl
  have hF : demoPot.calc_dVdpos = fun _ => 1 := rfl
  have hg : demoPot.bias_grid_energy = [0, 0, 0, 0] := rfl
  have hgf : demoPot.bias_grid_force = [0, 0, 0, 0] := rfl
  refine ⟨rfl, rfl, ?_, ?_⟩
  · simp [ene, hE, hg, find_nearest_demoPot_one, find_nearest_demoPot_two, np_squeeze]
  · simp [force, hF, hgf, find_nearest_demoPot_one]

/-- C4 counterexample: construction with n_trigger = -1, sigma = -1 and inverted
grid bounds (min 10, max 0) succeeds and produces a full object — no
InvalidConfigurationError or InvalidRangeError is raised; `__init__` validates
nothing. -/
theorem init_no_validation_counterexample :
    except_ok (metadynamicsPotential_init (fun x => x) (fun _ => 0) (1/10) (-1) (-1)
      10 0 100) = true := by
  rfl

/-- C4 amended: `metadynamicsPotential.__init__` performs no parameter
validation.  For any base potential, amplitude, sigma, trigger interval and
bounds, construction succeeds whenever numbins ≥ 1; numbins = 0 fails with
ZeroDivisionError (from the bin-width division) and numbins < 0 with ValueError
(from np.zeros) — neither is an InvalidConfigurationError/InvalidRangeError. -/
theorem init_validation_amended (origE origF : ℚ → ℚ) (amplitude sigma : ℚ)
    (n_trigger : Int) (gmin gmax : ℚ) (numbins : Int) :
    (1 ≤ numbins →
      except_ok (metadynamicsPotential_init origE origF amplitude sigma n_trigger
        gmin gmax numbins) = true) ∧
    (numbins = 0 →
      metadynamicsPotential_init origE origF amplitude sigma n_trigger gmin gmax numbins
        = Except.error PyError.zeroDivisionError) ∧
    (numbins < 0 →
      metadynamicsPotential_init origE origF amplitude sigma n_trigger gmin gmax numbins
        = Except.error PyError.valueError) := by
  unfold metadynamicsPotential_init
  refine ⟨fun h => ?_, fun h => ?_, fun h => ?_⟩
  · rw [if_neg (by omega), if_neg (by omega)]; rfl
  · rw [if_neg (by omega), if_pos h]
  · rw [if_pos h]

/-- Witness for `init_validation_amended` at numbins 5, 0 and -1. -/
theorem init_validation_amended_witness :
    except_ok (metadynamicsPotential_init (fun x => x) (fun _ => 0) 1 (-1) (-1)
      10 0 5) = true ∧
    metadynamicsPotential_init (fun x => x) (fun _ => 0) 1 (-1) (-1) 10 0 0
      = Except.error PyError.zeroDivisionError ∧
    metadynamicsPotential_init (fun x => x) (fun _ => 0) 1 (-1) (-1) 10 0 (-1)
      = Except.error PyError.valueError :=
  ⟨(init_validation_amended (fun x => x) (fun _ => 0) 1 (-1) (-1) 10 0 5).1 (by decide),
   (init_validation_amended (fun x => x) (fun _ => 0) 1 (-1) (-1) 10 0 0).2.1 rfl,
   (init_validation_amended (fun x => x) (fun _ => 0) 1 (-1) (-1) 10 0 (-1)).2.2 (by decide)⟩

/-- C3 counterexample: on the strictly increasing centers [0, 1], the query 1/2
lies exactly at the midpoint of the two adjacent centers, yet `_find_nearest`
returns index 1, the higher of the two — not the lower index the claim states. -/
/-
  Facts about searchsorted / find_nearest.
-/

lemma searchsorted_le_length (arr : List ℚ) (v : ℚ) :
    searchsorted_left arr v ≤ arr.length := by
  induction arr with
  | nil => simp [searchsorted_left]
  | cons a rest ih =>
      simp only [searchsorted_left, List.length_cons]
      split <;> omega

lemma searchsorted_lt (arr : List ℚ) (v : ℚ) :
    ∀ j, j < searchsorted_left arr v → arr.getD j 0 < v := by
  induction arr with
  | nil => intro j hj; simp [searchsorted_left] at hj
  | cons a rest ih =>
      intro j hj
      simp only [searchsorted_left] at hj
      by_cases h : a < v
      · rw [if_pos h] at hj
        cases j with
        | zero => simpa using h
        | succ j' => simpa using ih j' (by omega)
      · rw [if_neg h] at hj
        omega

lemma searchsorted_ge (v : ℚ) : ∀ (arr : List ℚ),
    List.Pairwise (fun a b : ℚ => a < b) arr →
    ∀ j, searchsorted_left arr v ≤ j → j < arr.length → v ≤ arr.getD j 0 := by
  intro arr
  induction arr with
  | nil => intro _ j _ hj; simp at hj
  | cons a rest ih =>
      intro hs j hle hlt
      rw [List.pairwise_cons] at hs
      simp only [searchsorted_left] at hle
      by_cases h : a < v
      · rw [if_pos h] at hle
        cases j with
        | zero => omega
        | succ j' =>
            simp only [List.getD_cons_succ]
            exact ih hs.2 j' (by omega) (by simpa using hlt)
      · have hva : v ≤ a := not_lt.mp h
        cases j with
        | zero => simpa using hva
        | succ j' =>
            have hj' : j' < rest.length := by simpa using hlt
            have hmem : rest.getD j' 0 ∈ rest := by
              rw [List.getD_eq_getElem rest 0 hj']
              exact List.getElem_mem hj'
            have hab := hs.1 _ hmem
            simp only [List.getD_cons_succ]
            linarith

lemma getD_lt_getD (arr : List ℚ) (hs : List.Pairwise (fun a b : ℚ => a < b) arr)
    {i j : Nat} (hij : i < j) (hj : j < arr.length) :
    arr.getD i 0 < arr.getD j 0 := by
  have hi : i < arr.length := lt_trans hij hj
  rw [List.getD_eq_getElem arr 0 hi, List.getD_eq_getElem arr 0 hj]
  exact List.pairwise_iff_getElem.mp hs i j hi hj hij

lemma getD_le_getD (arr : List ℚ) (hs : List.Pairwise (fun a b : ℚ => a < b) arr)
    {i j : Nat} (hij : i ≤ j) (hj : j < arr.length) :
    arr.getD i 0 ≤ arr.getD j 0 := by
  rcases Nat.lt_or_ge i j with h | h
  · exact le_of_lt (getD_lt_getD arr hs h hj)
  · have : i = j := by omega
    rw [this]

lemma find_nearest_of_ss_zero (arr : List ℚ) (v : ℚ)
    (h : searchsorted_left arr v = 0) : find_nearest arr v = 0 := by
  simp [find_nearest, h]

lemma find_nearest_of_ss_length (arr : List ℚ) (v : ℚ)
    (h : searchsorted_left arr v = arr.length) (hne : 0 < arr.length) :
    find_nearest arr v = arr.length - 1 := by
  simp only [find_nearest, h]
  rw [if_pos ⟨hne, Or.inl trivial⟩]

lemma searchsorted_eq_zero (arr : List ℚ) (v : ℚ) (h : ∀ c ∈ arr, v ≤ c) :
    searchsorted_left arr v = 0 := by
  cases arr with
  | nil => rfl
  | cons a rest =>
      simp only [searchsorted_left]
      rw [if_neg (not_lt.mpr (h a (by simp)))]

lemma searchsorted_eq_length (arr : List ℚ) (v : ℚ) (h : ∀ c ∈ arr, c < v) :
    searchsorted_left arr v = arr.length := by
  induction arr with
  | nil => rfl
  | cons a rest ih =>
      simp only [searchsorted_left, List.length_cons]
      rw [if_pos (h a (by simp)), ih (fun c hc => h c (by simp [hc]))]

/-- C3 amended: on a strictly increasing list of centers, `_find_nearest` returns
an in-range index whose center no other center is strictly closer than; when the
query is the exact midpoint of two adjacent centers, the HIGHER of the two
indices is returned. -/
theorem find_nearest_is_nearest (arr : List ℚ) (v : ℚ)
    (hs : List.Pairwise (fun a b : ℚ => a < b) arr) (hne : arr ≠ []) :
    find_nearest arr v < arr.length ∧
    (∀ j, j < arr.length → |v - arr.getD (find_nearest arr v) 0| ≤ |v - arr.getD j 0|) ∧
    (∀ i, i + 1 < arr.length → v - arr.getD i 0 = arr.getD (i + 1) 0 - v →
      find_nearest arr v = i + 1) := by
  have hlen : 0 < arr.length := List.length_pos.mpr hne
  have hsle := searchsorted_le_length arr v
  have hfn : find_nearest arr v
      = if 0 < searchsorted_left arr v ∧ (searchsorted_left arr v = arr.length ∨
          |v - arr.getD (searchsorted_left arr v - 1) 0|
            < |v - arr.getD (searchsorted_left arr v) 0|)
        then searchsorted_left arr v - 1
        else searchsorted_left arr v := rfl
  -- a midpoint between adjacent centers forces the insertion point to i + 1
  have hmid : ∀ i, i + 1 < arr.length → v - arr.getD i 0 = arr.getD (i + 1) 0 - v →
      searchsorted_left arr v = i + 1 ∧ arr.getD i 0 < v ∧ v < arr.getD (i + 1) 0 := by
    intro i hi heq
    have hadj : arr.getD i 0 < arr.getD (i + 1) 0 :=
      getD_lt_getD arr hs (by omega) hi
    have hiv : arr.getD i 0 < v := by linarith
    have hvi : v < arr.getD (i + 1) 0 := by linarith
    have h1 : searchsorted_left arr v ≤ i + 1 := by
      by_contra hcon
      have := searchsorted_lt arr v (i + 1) (by omega)
      linarith
    have h2 : ¬ searchsorted_left arr v ≤ i := by
      intro hcon
      have := searchsorted_ge v arr hs i hcon (by omega)
      linarith
    exact ⟨by omega, hiv, hvi⟩
  rcases Nat.eq_zero_or_pos (searchsorted_left arr v) with hz | hpos
  · -- insertion point 0: v is at or below every center
    have hfn0 : find_nearest arr v = 0 := find_nearest_of_ss_zero arr v hz
    have hv0 : v ≤ arr.getD 0 0 := searchsorted_ge v arr hs 0 (by omega) hlen
    refine ⟨by omega, ?_, ?_⟩
    · intro j hj
      have h0j : arr.getD 0 0 ≤ arr.getD j 0 := getD_le_getD arr hs (Nat.zero_le j) hj
      rw [hfn0, abs_of_nonpos (by linarith), abs_of_nonpos (by linarith)]
      linarith
    · intro i hi heq
      obtain ⟨hss, hiv, _⟩ := hmid i hi heq
      omega
  · rcases Nat.lt_or_ge (searchsorted_left arr v) arr.length with hmidrange | hend
    · -- insertion point strictly inside: compare the two neighbors
      have hlow : arr.getD (searchsorted_left arr v - 1) 0 < v :=
        searchsorted_lt arr v _ (by omega)
      have hhigh : v ≤ arr.getD (searchsorted_left arr v) 0 :=
        searchsorted_ge v arr hs _ le_rfl hmidrange
      by_cases hc : |v - arr.getD (searchsorted_left arr v - 1) 0|
          < |v - arr.getD (searchsorted_left arr v) 0|
      · -- strictly closer to the lower neighbor
        have hfn1 : find_nearest arr v = searchsorted_left arr v - 1 := by
          rw [hfn, if_pos ⟨hpos, Or.inr hc⟩]
        have hc' : v - arr.getD (searchsorted_left arr v - 1) 0
            < arr.getD (searchsorted_left arr v) 0 - v := by
          rwa [abs_of_nonneg (by linarith), abs_of_nonpos (by linarith), neg_sub] at hc
        refine ⟨by omega, ?_, ?_⟩
        · intro j hj
          rw [hfn1]
          rcases Nat.lt_or_ge j (searchsorted_left arr v) with hjs | hjs
          · have hjlt : arr.getD j 0 < v := searchsorted_lt arr v j hjs
            have : arr.getD j 0 ≤ arr.getD (searchsorted_left arr v - 1) 0 :=
              getD_le_getD arr hs (by omega) (by omega)
            rw [abs_of_nonneg (by linarith), abs_of_nonneg (by linarith)]
            linarith
          · have : arr.getD (searchsorted_left arr v) 0 ≤ arr.getD j 0 :=
              getD_le_getD arr hs hjs hj
            rw [abs_of_nonneg (by linarith), abs_of_nonpos (by linarith)]
            linarith
        · intro i hi heq
          obtain ⟨hss, hiv, hvi⟩ := hmid i hi heq
          have hd : v - arr.getD i 0 = arr.getD (i + 1) 0 - v := heq
          rw [hss] at hc'
          simp only [Nat.add_sub_cancel] at hc'
          linarith
      · -- tie or closer to the upper neighbor: the higher index is returned
        have hfn1 : find_nearest arr v = searchsorted_left arr v := by
          rw [hfn, if_neg]
          rintro ⟨-, h2 | h2⟩
          · omega
          · exact hc h2
        have hc' : arr.getD (searchsorted_left arr v) 0 - v
            ≤ v - arr.getD (searchsorted_left arr v - 1) 0 := by
          have := not_lt.mp hc
          rwa [abs_of_nonpos (by linarith), neg_sub, abs_of_nonneg (by linarith)] at this
        refine ⟨by omega, ?_, ?_⟩
        · intro j hj
          rw [hfn1]
          rcases Nat.lt_or_ge j (searchsorted_left arr v) with hjs | hjs
          · have hjlt : arr.getD j 0 < v := searchsorted_lt arr v j hjs
            have : arr.getD j 0 ≤ arr.getD (searchsorted_left arr v - 1) 0 :=
              getD_le_getD arr hs (by omega) (by omega)
            rw [abs_of_nonpos (by linarith), abs_of_nonneg (by linarith)]
            linarith
          · have : arr.getD (searchsorted_left arr v) 0 ≤ arr.getD j 0 :=
              getD_le_getD arr hs hjs hj
            rw [abs_of_nonpos (by linarith), abs_of_nonpos (by linarith)]
            linarith
        · intro i hi heq
          obtain ⟨hss, _, _⟩ := hmid i hi heq
          rw [hfn1, hss]
    · -- insertion point past the end: every center is below v
      have hl : searchsorted_left arr v = arr.length := by omega
      have hfn1 : find_nearest arr v = arr.length - 1 :=
        find_nearest_of_ss_length arr v hl hlen
      refine ⟨by omega, ?_, ?_⟩
      · intro j hj
        have hjlt : arr.getD j 0 < v := searchsorted_lt arr v j (by omega)
        have hlast : arr.getD (arr.length - 1) 0 < v := searchsorted_lt arr v _ (by omega)
        have : arr.getD j 0 ≤ arr.getD (arr.length - 1) 0 :=
          getD_le_getD arr hs (by omega) (by omega)
        rw [hfn1, abs_of_nonneg (by linarith), abs_of_nonneg (by linarith)]
        linarith
      · intro i hi heq
        obtain ⟨hss, _, hvi⟩ := hmid i hi heq
        have := searchsorted_lt arr v (i + 1) (by omega)
        linarith

/-- Witness for `find_nearest_is_nearest` on the centers [0, 1, 4] and query 2. -/
theorem find_nearest_is_nearest_witness :
    |(2 : ℚ) - [0, 1, 4].getD (find_nearest [0, 1, 4] 2) 0| ≤ |(2 : ℚ) - [0, 1, 4].getD 0 0| :=
  (find_nearest_is_nearest [0, 1, 4] 2 (by decide) (by decide)).2.1 0 (by decide)

lemma np_linspace_length (start stop : ℚ) (num : Nat) :
    (np_linspace start stop num).length = num := by
  unfold np_linspace
  split
  · simp [*]
  · rw [List.length_map, List.length_range]

lemma np_linspace_mem (start stop : ℚ) (num : Nat) (hle : start ≤ stop) :
    ∀ c ∈ np_linspace start stop num, start ≤ c ∧ c ≤ stop := by
  intro c hc
  unfold np_linspace at hc
  split at hc
  · simp only [List.mem_singleton] at hc
    subst hc
    exact ⟨le_refl _, hle⟩
  · rename_i hnum1
    rw [List.mem_map] at hc
    obtain ⟨i, hir, rfl⟩ := hc
    rw [List.mem_range] at hir
    have hnum2 : 2 ≤ num := by omega
    have hden : (0 : ℚ) < (num : ℚ) - 1 := by
      have h2 : (2 : ℚ) ≤ (num : ℚ) := by exact_mod_cast hnum2
      linarith
    have hi' : (i : ℚ) ≤ (num : ℚ) - 1 := by
      have h1 : (i : ℚ) + 1 ≤ (num : ℚ) := by exact_mod_cast hir
      linarith
    constructor
    · have h0 : 0 ≤ (stop - start) * (i : ℚ) / ((num : ℚ) - 1) :=
        div_nonneg (mul_nonneg (by linarith) (Nat.cast_nonneg i)) (le_of_lt hden)
      linarith
    · have hmul : (stop - start) * (i : ℚ) ≤ (stop - start) * ((num : ℚ) - 1) :=
        mul_le_mul_of_nonneg_left hi' (by linarith)
      have hfrac : (stop - start) * (i : ℚ) / ((num : ℚ) - 1) ≤ stop - start := by
        rw [div_le_iff₀ hden]
        exact hmul
      linarith

/-- C6: out-of-range clamp.  On any successfully constructed grid with
lower < upper bound and at least one bin, every query at or below the lower
bound selects bin 0 and every query at or above the upper bound selects bin
numbins - 1; no error is possible.  In particular a query far below the range
selects the same bin (hence the same stored bias value) as querying the lower
bound itself. -/
theorem find_nearest_out_of_range_clamp (origE origF : ℚ → ℚ) (amplitude sigma : ℚ)
    (n_trigger : Int) (gmin gmax : ℚ) (nb : Int) (p0 : MetadynamicsPotential)
    (hlt : gmin < gmax) (hnb : 1 ≤ nb)
    (hinit : metadynamicsPotential_init origE origF amplitude sigma n_trigger gmin gmax nb
      = Except.ok p0) (v : ℚ) :
    p0.bin_centers.length = nb.toNat ∧
    (v ≤ gmin → find_nearest p0.bin_centers v = 0) ∧
    (gmax ≤ v → find_nearest p0.bin_centers v = p0.bin_centers.length - 1) := by
  unfold metadynamicsPotential_init at hinit
  rw [if_neg (by omega), if_neg (by omega)] at hinit
  injection hinit with hinit
  subst hinit
  have hnbq : (1 : ℚ) ≤ ((nb : Int) : ℚ) := by exact_mod_cast hnb
  have hbh : (0 : ℚ) < (gmax - gmin) / (2 * ((nb : Int) : ℚ)) :=
    div_pos (by linarith) (by linarith)
  have hss : gmin + (gmax - gmin) / (2 * ((nb : Int) : ℚ))
      ≤ gmax - (gmax - gmin) / (2 * ((nb : Int) : ℚ)) := by
    have hhalf : 2 * ((gmax - gmin) / (2 * ((nb : Int) : ℚ))) = (gmax - gmin) / ((nb : Int) : ℚ) := by
      field_simp
      ring
    have hkey : (gmax - gmin) / ((nb : Int) : ℚ) ≤ gmax - gmin :=
      div_le_self (by linarith) hnbq
    nlinarith [hhalf, hkey]
  have hmem := np_linspace_mem (gmin + (gmax - gmin) / (2 * ((nb : Int) : ℚ)))
    (gmax - (gmax - gmin) / (2 * ((nb : Int) : ℚ))) nb.toNat hss
  have hlen := np_linspace_length (gmin + (gmax - gmin) / (2 * ((nb : Int) : ℚ)))
    (gmax - (gmax - gmin) / (2 * ((nb : Int) : ℚ))) nb.toNat
  refine ⟨hlen, fun hv => ?_, fun hv => ?_⟩
  · apply find_nearest_of_ss_zero
    apply searchsorted_eq_zero
    intro c hc
    have := (hmem c hc).1
    linarith
  · apply find_nearest_of_ss_length
    · apply searchsorted_eq_length
      intro c hc
      have := (hmem c hc).2
      linarith
    · simp only [hlen]
      omega

/-- Witness for `find_nearest_out_of_range_clamp`: on the grid of `demoP3`
(bounds [0, 10], 4 bins), the query -1000 and the query 0 select the same bin 0
and hence read the same stored bias value. -/
theorem find_nearest_out_of_range_clamp_witness :
    find_nearest demoP3.bin_centers (-1000) = 0 ∧
    find_nearest demoP3.bin_centers 0 = 0 ∧
    demoP3.bias_grid_energy.getD (find_nearest demoP3.bin_centers (-1000)) 0
      = demoP3.bias_grid_energy.getD (find_nearest demoP3.bin_centers 0) 0 := by
  have h1 := (find_nearest_out_of_range_clamp (fun x => x) (fun _ => 0) (1/10) (1/10) 3
    0 10 4 demoP3 (by norm_num) (by decide) rfl (-1000)).2.1 (by norm_num)
  have h2 := (find_nearest_out_of_range_clamp (fun x => x) (fun _ => 0) (1/10) (1/10) 3
    0 10 4 demoP3 (by norm_num) (by decide) rfl 0).2.1 (by norm_num)
  exact ⟨h1, h2, by rw [h1, h2]⟩

theorem find_nearest_midpoint_tie_counterexample :
    List.Pairwise (fun a b : ℚ => a < b) [0, 1] ∧
    (1/2 : ℚ) - 0 = 1 - (1/2 : ℚ) ∧
    find_nearest [0, 1] (1/2) = 1 := by
  refine ⟨by decide, by norm_num, ?_⟩
  have h : searchsorted_left [0, 1] (1/2 : ℚ) = 1 := by norm_num [searchsorted_left]
  simp only [find_nearest, h]
  norm_num

/-
  The deposition schedule counter.
-/

lemma emod_succ_eq_zero_iff (T j : Int) (hT : 1 ≤ T) (hj : 0 ≤ j) :
    (j % T + 1) % T = 0 ↔ T ∣ (j + 1) := by
  have hTne : T ≠ 0 := by omega
  have hm0 : 0 ≤ j % T := Int.emod_nonneg j hTne
  have hmlt : j % T < T := Int.emod_lt_of_pos j (by omega)
  by_cases hfire : j % T + 1 = T
  · constructor
    · intro _
      refine ⟨j / T + 1, ?_⟩
      have hde := Int.ediv_add_emod j T
      linarith
    · intro _
      rw [hfire, Int.emod_self]
  · have hlt : j % T + 1 < T := by omega
    have hmm : (j % T + 1) % T = j % T + 1 := Int.emod_eq_of_lt (by omega) hlt
    constructor
    · intro h
      rw [hmm] at h
      omega
    · intro hdvd
      exfalso
      have hde := Int.ediv_add_emod j T
      obtain ⟨c, hc⟩ := hdvd
      have hdc : T ∣ (j % T + 1) := by
        refine ⟨c - j / T, ?_⟩
        have : j % T + 1 = (j + 1) - T * (j / T) := by linarith
        rw [this, hc]
        ring
      have := Int.le_of_dvd (by omega) hdc
      omega

lemma run_steps_counter (kE kF : ℚ → ℚ → ℚ → ℚ → ℚ) (T : Int) (hT : 1 ≤ T)
    (ps : List ℚ) :
    ∀ (p : MetadynamicsPotential) (k : Int), 0 ≤ k →
    p.n_trigger = T → p.current_n = k % T + 1 → p.finished_steps = k / T →
    (run_steps kE kF p ps).current_n = (k + (ps.length : Int)) % T + 1 ∧
    (run_steps kE kF p ps).finished_steps = (k + (ps.length : Int)) / T := by
  induction ps with
  | nil =>
      intro p k hk h1 h2 h3
      constructor
      · simpa [run_steps] using h2
      · simpa [run_steps] using h3
  | cons mu rest ih =>
      intro p k hk h1 h2 h3
      have hTne : T ≠ 0 := by omega
      have hm0 : 0 ≤ k % T := Int.emod_nonneg k hTne
      have hmlt : k % T < T := Int.emod_lt_of_pos k (by omega)
      have hrs : run_steps kE kF p (mu :: rest)
          = run_steps kE kF (check_for_metastep kE kF p mu) rest := rfl
      have harg : k + ((mu :: rest).length : Int) = (k + 1) + (rest.length : Int) := by
        simp only [List.length_cons]
        push_cast
        ring
      by_cases hfire : k % T + 1 = T
      · -- the call fires: counter resets, finished_steps increments
        have hcond : p.current_n % p.n_trigger = 0 := by
          rw [h2, h1, hfire, Int.emod_self]
        have hq : check_for_metastep kE kF p mu
            = { update_potential kE kF p mu with
                current_n := 1, finished_steps := p.finished_steps + 1 } := by
          unfold check_for_metastep
          rw [if_pos hcond]
        have hk1 : k + 1 = T * (k / T + 1) := by
          have hde := Int.ediv_add_emod k T
          linarith
        have hmod : (k + 1) % T = 0 := by rw [hk1]; exact Int.mul_emod_right T _
        have hdiv : (k + 1) / T = k / T + 1 := by
          rw [hk1]
          exact Int.mul_ediv_cancel_left _ hTne
        have hrec := ih (check_for_metastep kE kF p mu) (k + 1) (by omega)
          (by rw [hq]; exact h1)
          (by rw [hq, hmod]; norm_num)
          (by rw [hq, hdiv, h3])
        rw [hrs, harg]
        exact hrec
      · -- the call does not fire: counter increments, finished_steps unchanged
        have hlt : k % T + 1 < T := by omega
        have hcond : ¬ p.current_n % p.n_trigger = 0 := by
          rw [h2, h1, Int.emod_eq_of_lt (by omega) hlt]
          omega
        have hq : check_for_metastep kE kF p mu = { p with current_n := p.current_n + 1 } := by
          unfold check_for_metastep
          rw [if_neg hcond]
        have hk1 : k + 1 = (k % T + 1) + T * (k / T) := by
          have hde := Int.ediv_add_emod k T
          linarith
        have hmod : (k + 1) % T = k % T + 1 := by
          rw [hk1, Int.add_mul_emod_self_left, Int.emod_eq_of_lt (by omega) hlt]
        have hdiv : (k + 1) / T = k / T := by
          rw [hk1, Int.add_mul_ediv_left _ _ hTne,
            Int.ediv_eq_zero_of_lt (by omega) hlt, zero_add]
        have hrec := ih (check_for_metastep kE kF p mu) (k + 1) (by omega)
          (by rw [hq]; exact h1)
          (by rw [hq, hmod, h2])
          (by rw [hq, hdiv, h3])
        rw [hrs, harg]
        exact hrec

lemma check_current_n_fires (kE kF : ℚ → ℚ → ℚ → ℚ → ℚ) (p : MetadynamicsPotential)
    (x : ℚ) (h : fires p = true) :
    (check_for_metastep kE kF p x).current_n = 1 := by
  have h' : p.current_n % p.n_trigger = 0 := by simpa [fires] using h
  unfold check_for_metastep
  rw [if_pos h']

lemma check_current_n_not_fires (kE kF : ℚ → ℚ → ℚ → ℚ → ℚ) (p : MetadynamicsPotential)
    (x : ℚ) (h : fires p = false) :
    (check_for_metastep kE kF p x).current_n = p.current_n + 1 := by
  have h' : ¬ p.current_n % p.n_trigger = 0 := by simpa [fires] using h
  unfold check_for_metastep
  rw [if_neg h']

lemma run_steps_take_succ (kE kF : ℚ → ℚ → ℚ → ℚ → ℚ) (p : MetadynamicsPotential)
    (positions : List ℚ) (j : Nat) (hj : j < positions.length) :
    run_steps kE kF p (positions.take (j + 1))
      = check_for_metastep kE kF (run_steps kE kF p (positions.take j)) positions[j] := by
  rw [← List.take_concat_get positions j hj, List.concat_eq_append]
  unfold run_steps
  rw [List.foldl_append]
  rfl

/-- C2: deposition schedule.  Starting from a freshly constructed
metadynamicsPotential with trigger interval T ≥ 1, after k calls to
`check_for_metastep` the counter `finished_steps` equals floor(k / T), and the
deposition condition fires on exactly those calls whose 1-based ordinal is a
multiple of T. -/
theorem check_for_metastep_schedule (kE kF : ℚ → ℚ → ℚ → ℚ → ℚ)
    (origE origF : ℚ → ℚ) (amplitude sigma : ℚ) (T : Int) (gmin gmax : ℚ) (nb : Int)
    (p0 : MetadynamicsPotential) (hT : 1 ≤ T)
    (hinit : metadynamicsPotential_init origE origF amplitude sigma T gmin gmax nb
      = Except.ok p0)
    (positions : List ℚ) :
    (run_steps kE kF p0 positions).finished_steps = (positions.length : Int) / T ∧
    ∀ j : Nat, j < positions.length →
      (fires (run_steps kE kF p0 (positions.take j)) = true ↔ T ∣ ((j : Int) + 1)) := by
  unfold metadynamicsPotential_init at hinit
  by_cases h1 : nb < 0
  · rw [if_pos h1] at hinit
    exact absurd hinit (by simp)
  · rw [if_neg h1] at hinit
    by_cases h2 : nb = 0
    · rw [if_pos h2] at hinit
      exact absurd hinit (by simp)
    · rw [if_neg h2] at hinit
      injection hinit with hinit
      have hTn : p0.n_trigger = T := by rw [← hinit]
      have hc1 : p0.current_n = 1 := by rw [← hinit]
      have hf0 : p0.finished_steps = 0 := by rw [← hinit]
      constructor
      · have h0 := run_steps_counter kE kF T hT positions p0 0 le_rfl hTn
          (by rw [hc1, Int.zero_emod]; norm_num) (by rw [hf0, Int.zero_ediv])
        rw [h0.2, zero_add]
      · intro j hj
        have hlen : ((positions.take j).length : Int) = (j : Int) := by
          rw [List.length_take]
          congr 1
          omega
        have htake := run_steps_counter kE kF T hT (positions.take j) p0 0 le_rfl hTn
          (by rw [hc1, Int.zero_emod]; norm_num) (by rw [hf0, Int.zero_ediv])
        have hcn := htake.1
        rw [hlen, zero_add] at hcn
        have hTrun := (run_steps_preserves kE kF (positions.take j) p0).2.1
        rw [fires, decide_eq_true_eq, hcn, hTrun, hTn]
        exact emod_succ_eq_zero_iff T (j : Int) hT (by omega)

/-- Witness for `check_for_metastep_schedule`: trigger interval 3, six calls,
two depositions. -/
theorem check_for_metastep_schedule_witness :
    (run_steps kdemo kdemo demoP3 [1, 2, 3, 4, 5, 6]).finished_steps = 2 := by
  have h := (check_for_metastep_schedule kdemo kdemo (fun x => x) (fun _ => 0)
    (1/10) (1/10) 3 0 10 4 demoP3 (by decide) rfl [1, 2, 3, 4, 5, 6]).1
  rw [h]
  decide

/-- C8: counter range invariant.  For trigger interval T ≥ 1, the counter
`current_n` is 1 right after construction, stays in [1, T] after every prefix of
calls, resets to 1 exactly on firing calls and increments by 1 on all others. -/
theorem current_n_range_invariant (kE kF : ℚ → ℚ → ℚ → ℚ → ℚ)
    (origE origF : ℚ → ℚ) (amplitude sigma : ℚ) (T : Int) (gmin gmax : ℚ) (nb : Int)
    (p0 : MetadynamicsPotential) (hT : 1 ≤ T)
    (hinit : metadynamicsPotential_init origE origF amplitude sigma T gmin gmax nb
      = Except.ok p0)
    (positions : List ℚ) :
    p0.current_n = 1 ∧
    (∀ j, j ≤ positions.length →
      1 ≤ (run_steps kE kF p0 (positions.take j)).current_n ∧
      (run_steps kE kF p0 (positions.take j)).current_n ≤ T) ∧
    (∀ j, j < positions.length →
      (fires (run_steps kE kF p0 (positions.take j)) = true →
        (run_steps kE kF p0 (positions.take (j + 1))).current_n = 1) ∧
      (fires (run_steps kE kF p0 (positions.take j)) = false →
        (run_steps kE kF p0 (positions.take (j + 1))).current_n
          = (run_steps kE kF p0 (positions.take j)).current_n + 1)) := by
  unfold metadynamicsPotential_init at hinit
  by_cases h1 : nb < 0
  · rw [if_pos h1] at hinit
    exact absurd hinit (by simp)
  · rw [if_neg h1] at hinit
    by_cases h2 : nb = 0
    · rw [if_pos h2] at hinit
      exact absurd hinit (by simp)
    · rw [if_neg h2] at hinit
      injection hinit with hinit
      have hTn : p0.n_trigger = T := by rw [← hinit]
      have hc1 : p0.current_n = 1 := by rw [← hinit]
      have hf0 : p0.finished_steps = 0 := by rw [← hinit]
      refine ⟨hc1, ?_, ?_⟩
      · intro j _
        have htake := run_steps_counter kE kF T hT (positions.take j) p0 0 le_rfl hTn
          (by rw [hc1, Int.zero_emod]; norm_num) (by rw [hf0, Int.zero_ediv])
        have hcn := htake.1
        rw [zero_add] at hcn
        have hTne : T ≠ 0 := by omega
        have hm0 : 0 ≤ ((positions.take j).length : Int) % T :=
          Int.emod_nonneg _ hTne
        have hmlt : ((positions.take j).length : Int) % T < T :=
          Int.emod_lt_of_pos _ (by omega)
        constructor
        · rw [hcn]; omega
        · rw [hcn]; omega
      · intro j hj
        constructor
        · intro hfire
          rw [run_steps_take_succ kE kF _ positions j hj]
          exact check_current_n_fires kE kF _ _ hfire
        · intro hfire
          rw [run_steps_take_succ kE kF _ positions j hj]
          exact check_current_n_not_fires kE kF _ _ hfire

/-- Witness for `current_n_range_invariant` after four of six calls with
trigger interval 3. -/
theorem current_n_range_invariant_witness :
    1 ≤ (run_steps kdemo kdemo demoP3 ([1, 2, 3, 4, 5, 6].take 4)).current_n ∧
    (run_steps kdemo kdemo demoP3 ([1, 2, 3, 4, 5, 6].take 4)).current_n ≤ 3 :=
  (current_n_range_invariant kdemo kdemo (fun x => x) (fun _ => 0) (1/10) (1/10) 3
    0 10 4 demoP3 (by decide) rfl [1, 2, 3, 4, 5, 6]).2.1 4 (by decide)

/-
  Additivity of deposition.
-/

/-- Elementwise sum of a batch of equal-length grids, starting from the zero grid. -/
def grid_sum (n : Nat) (gs : List (List ℚ)) : List ℚ :=
  gs.foldl zipAdd (List.replicate n 0)

lemma zipAdd_comm (xs : List ℚ) : ∀ ys : List ℚ, zipAdd xs ys = zipAdd ys xs := by
  induction xs with
  | nil => intro ys; cases ys <;> rfl
  | cons x xs ih =>
      intro ys
      cases ys with
      | nil => rfl
      | cons y ys =>
          rw [show zipAdd (x :: xs) (y :: ys) = (x + y) :: zipAdd xs ys from rfl,
            show zipAdd (y :: ys) (x :: xs) = (y + x) :: zipAdd ys xs from rfl,
            ih ys, add_comm]

lemma zipAdd_assoc (xs : List ℚ) : ∀ ys zs : List ℚ,
    zipAdd (zipAdd xs ys) zs = zipAdd xs (zipAdd ys zs) := by
  induction xs with
  | nil => intro ys zs; rfl
  | cons x xs ih =>
      intro ys zs
      cases ys with
      | nil => rfl
      | cons y ys =>
          cases zs with
          | nil => rfl
          | cons z zs =>
              rw [show zipAdd (zipAdd (x :: xs) (y :: ys)) (z :: zs)
                  = (x + y + z) :: zipAdd (zipAdd xs ys) zs from rfl,
                show zipAdd (x :: xs) (zipAdd (y :: ys) (z :: zs))
                  = (x + (y + z)) :: zipAdd xs (zipAdd ys zs) from rfl,
                ih ys zs, add_assoc]

lemma zipAdd_replicate_zero_left (xs : List ℚ) : ∀ n : Nat, xs.length = n →
    zipAdd (List.replicate n 0) xs = xs := by
  induction xs with
  | nil => intro n h; subst h; rfl
  | cons x xs ih =>
      intro n h
      subst h
      rw [show List.replicate (x :: xs).length (0 : ℚ)
          = 0 :: List.replicate xs.length 0 from rfl,
        show zipAdd (0 :: List.replicate xs.length 0) (x :: xs)
          = (0 + x) :: zipAdd (List.replicate xs.length 0) xs from rfl,
        ih xs.length rfl, zero_add]

lemma zipAdd_replicate_zero_right (xs : List ℚ) (n : Nat) (h : xs.length = n) :
    zipAdd xs (List.replicate n 0) = xs := by
  rw [zipAdd_comm]
  exact zipAdd_replicate_zero_left xs n h

lemma zipAdd_length (xs ys : List ℚ) : (zipAdd xs ys).length = min xs.length ys.length :=
  List.length_zipWith _ xs ys

lemma foldl_zipAdd_shift (gs : List (List ℚ)) : ∀ a b : List ℚ,
    gs.foldl zipAdd (zipAdd a b) = zipAdd a (gs.foldl zipAdd b) := by
  induction gs with
  | nil => intro a b; rfl
  | cons g gs ih =>
      intro a b
      simp only [List.foldl_cons]
      rw [zipAdd_assoc, ih]

lemma grid_sum_cons (n : Nat) (g : List ℚ) (gs : List (List ℚ)) (hg : g.length = n) :
    grid_sum n (g :: gs) = zipAdd g (grid_sum n gs) := by
  unfold grid_sum
  simp only [List.foldl_cons]
  rw [zipAdd_replicate_zero_left g n hg, ← foldl_zipAdd_shift,
    zipAdd_replicate_zero_right g n hg]

lemma grid_sum_length (n : Nat) (gs : List (List ℚ)) (h : ∀ g ∈ gs, g.length = n) :
    (grid_sum n gs).length = n := by
  induction gs with
  | nil => simp [grid_sum]
  | cons g gs ih =>
      rw [grid_sum_cons n g gs (h g (by simp))]
      rw [zipAdd_length, h g (by simp), ih (fun g hg => h g (by simp [hg]))]
      omega

lemma run_deposits_preserves (kE kF : ℚ → ℚ → ℚ → ℚ → ℚ) (ps : List ℚ) :
    ∀ p : MetadynamicsPotential,
    (run_deposits kE kF p ps).bin_centers = p.bin_centers ∧
    (run_deposits kE kF p ps).amplitude = p.amplitude ∧
    (run_deposits kE kF p ps).sigma = p.sigma := by
  induction ps with
  | nil => intro p; exact ⟨rfl, rfl, rfl⟩
  | cons mu rest ih =>
      intro p
      have htail := ih (update_potential kE kF p mu)
      exact ⟨htail.1, htail.2.1, htail.2.2⟩

lemma run_deposits_energy (kE kF : ℚ → ℚ → ℚ → ℚ → ℚ) (ps : List ℚ) :
    ∀ p : MetadynamicsPotential,
    p.bias_grid_energy.length = p.bin_centers.length →
    (run_deposits kE kF p ps).bias_grid_energy
      = zipAdd p.bias_grid_energy
          (grid_sum p.bin_centers.length
            (ps.map (fun mu => p.bin_centers.map (kE p.amplitude mu p.sigma)))) := by
  induction ps with
  | nil =>
      intro p hE
      simp only [List.map_nil]
      rw [show (run_deposits kE kF p []).bias_grid_energy = p.bias_grid_energy from rfl]
      rw [show grid_sum p.bin_centers.length [] = List.replicate p.bin_centers.length 0 from rfl]
      rw [zipAdd_replicate_zero_right _ _ hE]
  | cons mu rest ih =>
      intro p hE
      have hq : run_deposits kE kF p (mu :: rest)
          = run_deposits kE kF (update_potential kE kF p mu) rest := rfl
      have hqE : (update_potential kE kF p mu).bias_grid_energy
          = zipAdd p.bias_grid_energy (p.bin_centers.map (kE p.amplitude mu p.sigma)) := rfl
      have hqlen : (update_potential kE kF p mu).bias_grid_energy.length
          = (update_potential kE kF p mu).bin_centers.length := by
        rw [hqE, zipAdd_length, List.length_map]
        rw [show (update_potential kE kF p mu).bin_centers = p.bin_centers from rfl]
        omega
      have hrec := ih (update_potential kE kF p mu) hqlen
      rw [hq, hrec]
      rw [show (update_potential kE kF p mu).bin_centers = p.bin_centers from rfl,
        show (update_potential kE kF p mu).amplitude = p.amplitude from rfl,
        show (update_potential kE kF p mu).sigma = p.sigma from rfl, hqE]
      rw [List.map_cons, grid_sum_cons p.bin_centers.length _ _ (List.length_map _ _)]
      rw [zipAdd_assoc]

lemma run_deposits_force (kE kF : ℚ → ℚ → ℚ → ℚ → ℚ) (ps : List ℚ) :
    ∀ p : MetadynamicsPotential,
    p.bias_grid_force.length = p.bin_centers.length →
    (run_deposits kE kF p ps).bias_grid_force
      = zipAdd p.bias_grid_force
          (grid_sum p.bin_centers.length
            (ps.map (fun mu => p.bin_centers.map (kF p.amplitude mu p.sigma)))) := by
  induction ps with
  | nil =>
      intro p hF
      simp only [List.map_nil]
      rw [show (run_deposits kE kF p []).bias_grid_force = p.bias_grid_force from rfl]
      rw [show grid_sum p.bin_centers.length [] = List.replicate p.bin_centers.length 0 from rfl]
      rw [zipAdd_replicate_zero_right _ _ hF]
  | cons mu rest ih =>
      intro p hF
      have hq : run_deposits kE kF p (mu :: rest)
          = run_deposits kE kF (update_potential kE kF p mu) rest := rfl
      have hqF : (update_potential kE kF p mu).bias_grid_force
          = zipAdd p.bias_grid_force (p.bin_centers.map (kF p.amplitude mu p.sigma)) := rfl
      have hqlen : (update_potential kE kF p mu).bias_grid_force.length
          = (update_potential kE kF p mu).bin_centers.length := by
        rw [hqF, zipAdd_length, List.length_map]
        rw [show (update_potential kE kF p mu).bin_centers = p.bin_centers from rfl]
        omega
      have hrec := ih (update_potential kE kF p mu) hqlen
      rw [hq, hrec]
      rw [show (update_potential kE kF p mu).bin_centers = p.bin_centers from rfl,
        show (update_potential kE kF p mu).amplitude = p.amplitude from rfl,
        show (update_potential kE kF p mu).sigma = p.sigma from rfl, hqF]
      rw [List.map_cons, grid_sum_cons p.bin_centers.length _ _ (List.length_map _ _)]
      rw [zipAdd_assoc]

lemma grid_sum_perm (n : Nat) (gs gs' : List (List ℚ)) (h : List.Perm gs gs') :
    grid_sum n gs = grid_sum n gs' := by
  unfold grid_sum
  exact List.Perm.foldl_eq' h
    (fun x _ y _ z => by rw [zipAdd_assoc, zipAdd_assoc, zipAdd_comm x y]) _

/-- C7: strict additivity of deposition.  Starting from a freshly constructed
potential, after any sequence of depositions via `_update_potential` the energy
grid equals the elementwise sum of the individual kernel rasterizations over the
bin centers (likewise the force grid): nothing is reset, scaled or removed, and
in exact arithmetic the accumulated grids do not depend on the deposition order. -/
theorem update_potential_additivity (kE kF : ℚ → ℚ → ℚ → ℚ → ℚ)
    (origE origF : ℚ → ℚ) (amplitude sigma : ℚ) (T : Int) (gmin gmax : ℚ) (nb : Int)
    (p0 : MetadynamicsPotential)
    (hinit : metadynamicsPotential_init origE origF amplitude sigma T gmin gmax nb
      = Except.ok p0)
    (ps qs : List ℚ) (hperm : List.Perm ps qs) :
    (run_deposits kE kF p0 ps).bias_grid_energy
      = grid_sum p0.bin_centers.length
          (ps.map (fun mu => p0.bin_centers.map (kE p0.amplitude mu p0.sigma))) ∧
    (run_deposits kE kF p0 ps).bias_grid_force
      = grid_sum p0.bin_centers.length
          (ps.map (fun mu => p0.bin_centers.map (kF p0.amplitude mu p0.sigma))) ∧
    (run_deposits kE kF p0 ps).bias_grid_energy
      = (run_deposits kE kF p0 qs).bias_grid_energy ∧
    (run_deposits kE kF p0 ps).bias_grid_force
      = (run_deposits kE kF p0 qs).bias_grid_force := by
  unfold metadynamicsPotential_init at hinit
  by_cases h1 : nb < 0
  · rw [if_pos h1] at hinit
    exact absurd hinit (by simp)
  · rw [if_neg h1] at hinit
    by_cases h2 : nb = 0
    · rw [if_pos h2] at hinit
      exact absurd hinit (by simp)
    · rw [if_neg h2] at hinit
      injection hinit with hinit
      have hcen : p0.bin_centers.length = nb.toNat := by
        rw [← hinit]
        exact np_linspace_length _ _ _
      have hE : p0.bias_grid_energy = List.replicate nb.toNat 0 := by rw [← hinit]
      have hF : p0.bias_grid_force = List.replicate nb.toNat 0 := by rw [← hinit]
      have hElen : p0.bias_grid_energy.length = p0.bin_centers.length := by
        rw [hE, List.length_replicate, hcen]
      have hFlen : p0.bias_grid_force.length = p0.bin_centers.length := by
        rw [hF, List.length_replicate, hcen]
      have hsumlenE : ∀ rs : List ℚ,
          (grid_sum p0.bin_centers.length
            (rs.map (fun mu => p0.bin_centers.map (kE p0.amplitude mu p0.sigma)))).length
          = p0.bin_centers.length := by
        intro rs
        apply grid_sum_length
        intro g hg
        rw [List.mem_map] at hg
        obtain ⟨mu, _, rfl⟩ := hg
        exact List.length_map _ _
      have hsumlenF : ∀ rs : List ℚ,
          (grid_sum p0.bin_centers.length
            (rs.map (fun mu => p0.bin_centers.map (kF p0.amplitude mu p0.sigma)))).length
          = p0.bin_centers.length := by
        intro rs
        apply grid_sum_length
        intro g hg
        rw [List.mem_map] at hg
        obtain ⟨mu, _, rfl⟩ := hg
        exact List.length_map _ _
      have heneq : (run_deposits kE kF p0 ps).bias_grid_energy
          = grid_sum p0.bin_centers.length
              (ps.map (fun mu => p0.bin_centers.map (kE p0.amplitude mu p0.sigma))) := by
        rw [run_deposits_energy kE kF ps p0 hElen, hE]
        rw [zipAdd_replicate_zero_left _ _ (by rw [hsumlenE ps]; exact hcen)]
      have hforceq : (run_deposits kE kF p0 ps).bias_grid_force
          = grid_sum p0.bin_centers.length
              (ps.map (fun mu => p0.bin_centers.map (kF p0.amplitude mu p0.sigma))) := by
        rw [run_deposits_force kE kF ps p0 hFlen, hF]
        rw [zipAdd_replicate_zero_left _ _ (by rw [hsumlenF ps]; exact hcen)]
      have heneq' : (run_deposits kE kF p0 qs).bias_grid_energy
          = grid_sum p0.bin_centers.length
              (qs.map (fun mu => p0.bin_centers.map (kE p0.amplitude mu p0.sigma))) := by
        rw [run_deposits_energy kE kF qs p0 hElen, hE]
        rw [zipAdd_replicate_zero_left _ _ (by rw [hsumlenE qs]; exact hcen)]
      have hforceq' : (run_deposits kE kF p0 qs).bias_grid_force
          = grid_sum p0.bin_centers.length
              (qs.map (fun mu => p0.bin_centers.map (kF p0.amplitude mu p0.sigma))) := by
        rw [run_deposits_force kE kF qs p0 hFlen, hF]
        rw [zipAdd_replicate_zero_left _ _ (by rw [hsumlenF qs]; exact hcen)]
      refine ⟨heneq, hforceq, ?_, ?_⟩
      · rw [heneq, heneq']
        exact grid_sum_perm _ _ _ (List.Perm.map _ hperm)
      · rw [hforceq, hforceq']
        exact grid_sum_perm _ _ _ (List.Perm.map _ hperm)

/-- Witness for `update_potential_additivity`: depositing at 1 then 2 yields the
same grids as depositing at 2 then 1. -/
theorem update_potential_additivity_witness :
    (run_deposits kdemo kdemo demoP3 [1, 2]).bias_grid_energy
      = (run_deposits kdemo kdemo demoP3 [2, 1]).bias_grid_energy ∧
    (run_deposits kdemo kdemo demoP3 [1, 2]).bias_grid_force
      = (run_deposits kdemo kdemo demoP3 [2, 1]).bias_grid_force := by
  have h := update_potential_additivity kdemo kdemo (fun x => x) (fun _ => 0)
    (1/10) (1/10) 3 0 10 4 demoP3 rfl [1, 2] [2, 1] (by decide)
  exact ⟨h.2.2.1, h.2.2.2⟩
